import Mathlib

/-!
Verification of the Scorpio repository against its specification.

Part I embeds the easter-egg React provider
(src/components/easter-egg-provider.tsx) as pure state-transition
functions: the component state tracked by React hooks becomes an
explicit `EggState`, and the keydown handler becomes a function from
state and key code to state.  DOM side effects (particles, the
notification element, CSS classes) are outside the model.

Part II models the Agent Orchestration & Streaming Core described in
the specification (event bus, planning loop, session registry); that
core's implementation is not part of the checked-in sources, so the
definitions there are modelled from the spec, as marked on each one.
-/

namespace Scorpio

/-! ### Part I: easter-egg provider -/

/-- The 10-key Konami sequence, verbatim from the source constant
`KONAMI_CODE`. -/
def KONAMI_CODE : List String :=
  ["ArrowUp", "ArrowUp", "ArrowDown", "ArrowDown",
   "ArrowLeft", "ArrowRight", "ArrowLeft", "ArrowRight",
   "KeyB", "KeyA"]

/-- The component state held by the provider's hooks: `isEasterEggActive`
and `konamiProgress` are React state, `theme` is the value last passed to
`setTheme` of `next-themes`. -/
structure EggState where
  isEasterEggActive : Bool
  konamiProgress : Nat
  theme : String
deriving DecidableEq, Repr

/-- `activateEasterEgg` from the source: sets `isEasterEggActive` to true
and the theme to dark.  The DOM feedback (body class, particles,
notification) is a side effect outside this state model. -/
def activateEasterEgg (s : EggState) : EggState :=
  { s with isEasterEggActive := true, theme := "dark" }

/-- `handleKeyPress` from the source `useEffect`.  In JS,
`KONAMI_CODE[konamiProgress]` is `undefined` when the index is out of
range and `event.code` never equals `undefined`; `List.get?` returning
`none` models that.  The source first advances the progress counter and
then, if the whole sequence was matched, activates the egg and resets
the counter. -/
def handleKeyPress (s : EggState) (code : String) : EggState :=
  if KONAMI_CODE[s.konamiProgress]? = some code then
    if s.konamiProgress + 1 = KONAMI_CODE.length then
      { activateEasterEgg s with konamiProgress := 0 }
    else
      { s with konamiProgress := s.konamiProgress + 1 }
  else
    { s with konamiProgress := 0 }

/-- The context value exposed to consumers; only the data fields matter
for the `useEasterEgg` contract. -/
structure EasterEggContextType where
  isEasterEggActive : Bool
  konamiProgress : Nat
deriving DecidableEq, Repr

/-- The message of the error thrown by `useEasterEgg` outside a
provider. -/
def useEasterEggMsg : String :=
  "useEasterEgg must be used within an EasterEggProvider"

/-- `useEasterEgg` from the source: `useContext` yields `undefined`
(here `none`) outside a provider, in which case the hook throws; inside
a provider it returns the context value. -/
def useEasterEgg (ctx : Option EasterEggContextType) :
    Except String EasterEggContextType :=
  match ctx with
  | none => .error useEasterEggMsg
  | some c => .ok c

/-- C8: any keydown whose code is not the next expected key of the
Konami sequence resets `konamiProgress` to 0, restarting the match from
the beginning. -/
theorem c8_wrong_key_resets_progress (s : EggState) (code : String)
    (h : KONAMI_CODE[s.konamiProgress]? ≠ some code) :
    (handleKeyPress s code).konamiProgress = 0 := by
  simp [handleKeyPress, h]

/-- Witness for C8 at a concrete state and key. -/
theorem c8_wrong_key_resets_progress_witness :
    (handleKeyPress ⟨false, 0, "light"⟩ "KeyA").konamiProgress = 0 :=
  c8_wrong_key_resets_progress ⟨false, 0, "light"⟩ "KeyA" (by decide)

/-- C9: the easter egg activates exactly on the final key of the full
Konami sequence.  (1) From any state with progress 9, `KeyA` yields the
activated state (egg active, theme dark, progress 0); (2) feeding the
whole 10-key sequence from a fresh state activates the egg; (3) for an
inactive state, a keydown activates the egg iff the progress is 9 and
the key is `KeyA`. -/
theorem c9_konami_activation (s : EggState) (code : String) (t : String) :
    (s.konamiProgress = 9 →
      handleKeyPress s code = ⟨true, 0, "dark"⟩ ∨ code ≠ "KeyA") ∧
    (List.foldl handleKeyPress ⟨false, 0, t⟩ KONAMI_CODE = ⟨true, 0, "dark"⟩) ∧
    (s.isEasterEggActive = false →
      ((handleKeyPress s code).isEasterEggActive = true ↔
        (s.konamiProgress = 9 ∧ code = "KeyA"))) := by
  refine ⟨?_, ?_, ?_⟩
  · intro h9
    by_cases hc : code = "KeyA"
    · subst hc
      left
      simp [handleKeyPress, h9, activateEasterEgg, KONAMI_CODE]
    · right
      exact hc
  · simp [KONAMI_CODE, handleKeyPress, activateEasterEgg]
  · intro hin
    constructor
    · intro hact
      by_cases hm : KONAMI_CODE[s.konamiProgress]? = some code
      · by_cases hfull : s.konamiProgress + 1 = KONAMI_CODE.length
        · have h9 : s.konamiProgress = 9 := by
            have : s.konamiProgress + 1 = 10 := by
              simpa [KONAMI_CODE] using hfull
            omega
          refine ⟨h9, ?_⟩
          rw [h9] at hm
          simpa [KONAMI_CODE] using hm.symm
        · exfalso
          simp [handleKeyPress, hm, hfull] at hact
          rw [hact] at hin
          exact Bool.noConfusion hin
      · exfalso
        simp [handleKeyPress, hm] at hact
        rw [hact] at hin
        exact Bool.noConfusion hin
    · rintro ⟨h9, hc⟩
      subst hc
      simp [handleKeyPress, h9, activateEasterEgg, KONAMI_CODE]

/-- Witness for C9: the full sequence from a fresh light-themed state
activates the egg, and the final `KeyA` at progress 9 produces the
activated state. -/
theorem c9_konami_activation_witness :
    List.foldl handleKeyPress ⟨false, 0, "light"⟩ KONAMI_CODE
        = ⟨true, 0, "dark"⟩ ∧
      handleKeyPress ⟨false, 9, "light"⟩ "KeyA" = ⟨true, 0, "dark"⟩ := by
  refine ⟨(c9_konami_activation ⟨false, 9, "light"⟩ "KeyA" "light").2.1, ?_⟩
  have h := (c9_konami_activation ⟨false, 9, "light"⟩ "KeyA" "light").1 rfl
  rcases h with h | h
  · exact h
  · exact absurd rfl h

/-- C10: `useEasterEgg` throws exactly the documented error when the
context is `undefined` (no surrounding provider), and returns the
context value unchanged inside a provider. -/
theorem c10_useEasterEgg_contract :
    useEasterEgg none =
        .error "useEasterEgg must be used within an EasterEggProvider" ∧
      ∀ c : EasterEggContextType, useEasterEgg (some c) = .ok c := by
  exact ⟨rfl, fun c => rfl⟩

/-! ### Part II: Event Bus / Resumable Stream -/

/-- Modelled from the spec: the per-session Event Bus of §4.5 — an
append-only bounded ring of retained `(offset, payload)` pairs plus the
current offset counter — whose implementation is not among the checked-in
sources. -/
structure EventBus (α : Type) where
  capacity : Nat
  events : List (Nat × α)
  nextOffset : Nat
deriving DecidableEq, Repr

/-- A fresh bus for a newly created session: empty ring, offset counter
at 0. -/
def emptyBus (α : Type) (cap : Nat) : EventBus α :=
  ⟨cap, [], 0⟩

/-- Modelled from the spec: `publish` assigns the current offset counter
to the event, appends it to the ring, increments the counter, and evicts
the oldest events beyond the configured capacity. -/
def publish {α : Type} (b : EventBus α) (p : α) : EventBus α :=
  { b with
    events :=
      if b.capacity < (b.events ++ [(b.nextOffset, p)]).length then
        (b.events ++ [(b.nextOffset, p)]).drop
          ((b.events ++ [(b.nextOffset, p)]).length - b.capacity)
      else
        b.events ++ [(b.nextOffset, p)]
    nextOffset := b.nextOffset + 1 }

/-- The oldest retained offset of a bus. -/
def oldestOffset {α : Type} (b : EventBus α) : Nat :=
  b.nextOffset - b.events.length

/-- The error returned on resumption past the retention window. -/
inductive StreamErr
  | stream_gap
deriving DecidableEq, Repr

/-- Modelled from the spec: `subscribe` with `from_offset` less than the
oldest retained offset returns a `stream_gap` error; otherwise it yields
the retained events with offset greater than `from_offset`, in order. -/
def subscribe {α : Type} (b : EventBus α) (fromOffset : Nat) :
    Except StreamErr (List (Nat × α)) :=
  if fromOffset < oldestOffset b then
    .error .stream_gap
  else
    .ok (b.events.filter (fun e => fromOffset < e.1))

/-- The full event history of a session whose published payloads are
`ps`, offsets assigned from `start`: the reference assignment the bus is
compared against. -/
def eventsFrom {α : Type} (start : Nat) : List α → List (Nat × α)
  | [] => []
  | p :: ps => (start, p) :: eventsFrom (start + 1) ps

theorem eventsFrom_length {α : Type} (s : Nat) (ps : List α) :
    (eventsFrom s ps).length = ps.length := by
  induction ps generalizing s with
  | nil => rfl
  | cons p ps ih => simp [eventsFrom, ih]

theorem eventsFrom_append {α : Type} (s : Nat) (ps qs : List α) :
    eventsFrom s (ps ++ qs) = eventsFrom s ps ++ eventsFrom (s + ps.length) qs := by
  induction ps generalizing s with
  | nil => simp [eventsFrom]
  | cons p ps ih =>
    simp only [List.cons_append, eventsFrom, List.append_eq, List.length_cons, ih]
    have harith : s + 1 + ps.length = s + (ps.length + 1) := by omega
    rw [harith]

theorem eventsFrom_map_fst {α : Type} (s : Nat) (ps : List α) :
    (eventsFrom s ps).map Prod.fst = List.range' s ps.length := by
  induction ps generalizing s with
  | nil => rfl
  | cons p ps ih => simp [eventsFrom, List.range'_succ, ih]

theorem eventsFrom_drop {α : Type} (s j : Nat) (ps : List α) :
    (eventsFrom s ps).drop j = eventsFrom (s + j) (ps.drop j) := by
  induction ps generalizing s j with
  | nil => simp [eventsFrom]
  | cons p ps ih =>
    cases j with
    | zero => simp [eventsFrom]
    | succ j =>
      simp only [eventsFrom, List.drop_succ_cons, ih (s + 1) j]
      rw [Nat.add_assoc, Nat.add_comm 1 j]

theorem eventsFrom_filter_high {α : Type} (s k : Nat) (ps : List α) :
    (eventsFrom s ps).filter (fun e => k < e.1) =
      (eventsFrom s ps).drop (k + 1 - s) := by
  induction ps generalizing s with
  | nil => simp [eventsFrom]
  | cons p ps ih =>
    by_cases hs : k < s
    · have h0 : k + 1 - s = 0 := by omega
      have h1 : k + 1 - (s + 1) = 0 := by omega
      simp only [eventsFrom, List.filter_cons, ih, h0, h1, List.drop_zero]
      simp [hs]
    · have h2 : k + 1 - s = (k + 1 - (s + 1)) + 1 := by omega
      simp only [eventsFrom, List.filter_cons, ih, h2, List.drop_succ_cons]
      simp [hs]

theorem eventsFrom_mem_iff {α : Type} (s : Nat) (ps : List α) (e : Nat × α) :
    e ∈ eventsFrom s ps ↔ s ≤ e.1 ∧ ps[e.1 - s]? = some e.2 := by
  induction ps generalizing s with
  | nil => simp [eventsFrom]
  | cons p ps ih =>
    simp only [eventsFrom, List.mem_cons, ih (s + 1)]
    constructor
    · rintro (rfl | ⟨hle, hget⟩)
      · exact ⟨Nat.le_refl s, by simp⟩
      · refine ⟨by omega, ?_⟩
        have h2 : e.1 - s = (e.1 - (s + 1)) + 1 := by omega
        rw [h2, List.getElem?_cons_succ]
        exact hget
    · rintro ⟨hle, hget⟩
      rcases Nat.eq_or_lt_of_le hle with heq | hlt
      · left
        rw [← heq] at hget
        simp at hget
        obtain ⟨e1, e2⟩ := e
        simp only at heq hget
        rw [← heq, ← hget]
      · right
        refine ⟨hlt, ?_⟩
        have h2 : e.1 - s = (e.1 - (s + 1)) + 1 := by omega
        rw [h2, List.getElem?_cons_succ] at hget
        exact hget

/-- Characterization of a bus built by publishing `ps` in order into a
fresh bus of capacity `cap`: the counter equals the number of publishes
and the ring holds the last `cap` entries of the reference history. -/
theorem bus_fold_spec {α : Type} (cap : Nat) (ps : List α) :
    (ps.foldl publish (emptyBus α cap)).capacity = cap ∧
      (ps.foldl publish (emptyBus α cap)).nextOffset = ps.length ∧
      (ps.foldl publish (emptyBus α cap)).events =
        (eventsFrom 0 ps).drop (ps.length - cap) := by
  induction ps using List.reverseRecOn with
  | nil => simp [emptyBus, eventsFrom]
  | append_singleton qs p ih =>
    obtain ⟨hcap, hoff, hev⟩ := ih
    rw [List.foldl_append]
    simp only [List.foldl_cons, List.foldl_nil]
    set b := qs.foldl publish (emptyBus α cap) with hb
    set n := qs.length with hn
    have hEapp : eventsFrom 0 (qs ++ [p]) =
        eventsFrom 0 qs ++ [(n, p)] := by
      rw [eventsFrom_append]
      simp [eventsFrom]
    have hevs : b.events ++ [(b.nextOffset, p)] =
        (eventsFrom 0 (qs ++ [p])).drop (n - cap) := by
      rw [hev, hoff, hEapp, List.drop_append_eq_append_drop]
      have : n - cap - (eventsFrom 0 qs).length = 0 := by
        rw [eventsFrom_length]; omega
      rw [this, List.drop_zero]
    have hlenE : (eventsFrom 0 (qs ++ [p])).length = n + 1 := by
      rw [eventsFrom_length]; simp [hn]
    have hlen : (b.events ++ [(b.nextOffset, p)]).length = n + 1 - (n - cap) := by
      rw [hevs, List.length_drop, hlenE]
    refine ⟨hcap, ?_, ?_⟩
    · simp only [publish]
      rw [hoff]
      simp [hn]
    · simp only [publish, hcap]
      by_cases hc : cap < (b.events ++ [(b.nextOffset, p)]).length
      · rw [if_pos hc, hevs, List.drop_drop, List.length_drop, hlenE]
        rw [hlen] at hc
        have hql : (qs ++ [p]).length = n + 1 := by simp [hn]
        rw [hql]
        congr 1
        omega
      · rw [if_neg hc, hevs]
        rw [hlen] at hc
        have hql : (qs ++ [p]).length = n + 1 := by simp [hn]
        rw [hql]
        congr 1
        omega

/-- C1: for any session history, Event Bus offsets are gapless and
strictly increasing starting at 0: the counter equals the number of
publishes, the retained ring is a suffix of the reference history whose
offsets are the consecutive range ending at the counter, retained events
are pairwise offset-ordered, an event's `(offset, payload)` pair never
changes under later publishes (it is either still present verbatim or
evicted past the retention window), and every subscriber receives events
in strictly increasing offset order. -/
theorem c1_offsets_gapless_increasing (cap : Nat) (ps qs : List String) :
    (ps.foldl publish (emptyBus String cap)).nextOffset = ps.length ∧
      (ps.foldl publish (emptyBus String cap)).events =
        (eventsFrom 0 ps).drop (ps.length - cap) ∧
      (ps.foldl publish (emptyBus String cap)).events.map Prod.fst =
        List.range' (ps.length - cap) (ps.length - (ps.length - cap)) ∧
      (ps.foldl publish (emptyBus String cap)).events.Pairwise
        (fun e f => e.1 < f.1) ∧
      (∀ e ∈ (ps.foldl publish (emptyBus String cap)).events,
        e ∈ ((ps ++ qs).foldl publish (emptyBus String cap)).events ∨
          e.1 < oldestOffset ((ps ++ qs).foldl publish (emptyBus String cap))) ∧
      (∀ k l, subscribe (ps.foldl publish (emptyBus String cap)) k = .ok l →
        l.Pairwise (fun e f => e.1 < f.1)) := by
  obtain ⟨hcap, hoff, hev⟩ := bus_fold_spec cap ps
  obtain ⟨hcap', hoff', hev'⟩ := bus_fold_spec cap (ps ++ qs)
  have hfst : (ps.foldl publish (emptyBus String cap)).events.map Prod.fst =
      List.range' (ps.length - cap) (ps.length - (ps.length - cap)) := by
    rw [hev, eventsFrom_drop, eventsFrom_map_fst, List.length_drop, Nat.zero_add]
  have hpw : (ps.foldl publish (emptyBus String cap)).events.Pairwise
      (fun e f => e.1 < f.1) := by
    have := List.pairwise_lt_range' (ps.length - cap) (ps.length - (ps.length - cap))
    rw [← hfst, List.pairwise_map] at this
    exact this
  refine ⟨hoff, hev, hfst, hpw, ?_, ?_⟩
  · intro e he
    by_cases hlow : e.1 < oldestOffset ((ps ++ qs).foldl publish (emptyBus String cap))
    · exact Or.inr hlow
    · left
      have hold : oldestOffset ((ps ++ qs).foldl publish (emptyBus String cap)) =
          (ps.length + qs.length) - cap := by
        unfold oldestOffset
        rw [hoff', hev', List.length_drop, eventsFrom_length]
        simp only [List.length_append]
        omega
      rw [hev, eventsFrom_drop, eventsFrom_mem_iff] at he
      obtain ⟨hle, hget⟩ := he
      rw [List.getElem?_drop] at hget
      have hget2 : ps[e.1]? = some e.2 := by
        have : ps.length - cap + (e.1 - (0 + (ps.length - cap))) = e.1 := by omega
        rw [this] at hget
        exact hget
      have hlt : e.1 < ps.length := by
        have := List.getElem?_eq_some_iff.mp hget2
        exact this.1
      rw [hev', eventsFrom_drop, eventsFrom_mem_iff]
      rw [hold] at hlow
      refine ⟨by simp only [List.length_append]; omega, ?_⟩
      rw [List.getElem?_drop]
      have harr : ((ps ++ qs).length - cap) +
          (e.1 - (0 + ((ps ++ qs).length - cap))) = e.1 := by
        simp only [List.length_append]
        omega
      rw [harr, List.getElem?_append_left hlt]
      exact hget2
  · intro k l hsub
    unfold subscribe at hsub
    by_cases hg : k < oldestOffset (ps.foldl publish (emptyBus String cap))
    · rw [if_pos hg] at hsub
      exact absurd hsub (by simp)
    · rw [if_neg hg] at hsub
      have hl : l = (ps.foldl publish (emptyBus String cap)).events.filter
          (fun e => k < e.1) := by
        have := hsub
        simp only [Except.ok.injEq] at this
        exact this.symm
      rw [hl]
      exact List.Pairwise.sublist (List.filter_sublist _) hpw

/-- C2: resumption contract of `subscribe`.  For a session whose history
is `ps`: resuming from an offset `k` below the oldest retained offset
yields `stream_gap`; otherwise the subscriber receives exactly the
events with offset greater than `k` — the suffix of the reference
history after position `k` — in order, with consecutive (gapless,
duplicate-free) offsets `k+1, k+2, …`. -/
theorem c2_subscribe_resume (cap : Nat) (ps : List String) (k : Nat) :
    subscribe (ps.foldl publish (emptyBus String cap)) k =
        (if k < oldestOffset (ps.foldl publish (emptyBus String cap)) then
          .error .stream_gap
        else
          .ok ((eventsFrom 0 ps).drop (k + 1))) ∧
      (eventsFrom 0 ps).drop (k + 1) =
        (eventsFrom 0 ps).filter (fun e => k < e.1) ∧
      ((eventsFrom 0 ps).drop (k + 1)).map Prod.fst =
        List.range' (k + 1) (ps.length - (k + 1)) := by
  obtain ⟨hcap, hoff, hev⟩ := bus_fold_spec cap ps
  have hold : oldestOffset (ps.foldl publish (emptyBus String cap)) =
      ps.length - cap := by
    unfold oldestOffset
    rw [hoff, hev, List.length_drop, eventsFrom_length]
    omega
  refine ⟨?_, ?_, ?_⟩
  · unfold subscribe
    by_cases hg : k < oldestOffset (ps.foldl publish (emptyBus String cap))
    · rw [if_pos hg, if_pos hg]
    · rw [if_neg hg, if_neg hg]
      rw [hev, eventsFrom_drop, eventsFrom_filter_high, ← eventsFrom_drop,
        List.drop_drop]
      rw [hold] at hg
      have harith : ps.length - cap + (k + 1 - (0 + (ps.length - cap))) =
          k + 1 := by omega
      rw [harith]
  · rw [eventsFrom_filter_high, Nat.sub_zero]
  · rw [eventsFrom_drop, eventsFrom_map_fst, List.length_drop, Nat.zero_add]

/-- Witness for C1 at a concrete history: the retained event `(2, "c")`
of the capacity-2 bus after publishing three payloads is still present
after a fourth publish, and a subscriber's resumed view is
offset-ordered. -/
theorem c1_offsets_gapless_increasing_witness :
    ((2, "c") ∈ ((["a", "b", "c"] ++ ["d"]).foldl publish
        (emptyBus String 2)).events ∨
      (2 < oldestOffset ((["a", "b", "c"] ++ ["d"]).foldl publish
        (emptyBus String 2)))) ∧
      List.Pairwise (fun e f => e.1 < f.1) [(2, "c")] :=
  ⟨(c1_offsets_gapless_increasing 2 ["a", "b", "c"] ["d"]).2.2.2.2.1
      (2, "c") (by decide),
    (c1_offsets_gapless_increasing 2 ["a", "b", "c"] ["d"]).2.2.2.2.2
      1 [(2, "c")] rfl⟩

/-! ### Part III: Planning Loop -/

/-- Step statuses of a Plan, from the spec's data model. -/
inductive StepStatus
  | pending
  | running
  | done
  | failed
  | skipped
deriving DecidableEq, Repr

/-- Modelled from the spec: the per-session Plan state the Planning Loop
mutates — the ordered step statuses plus the Tool Gateway's single
in-flight tool-call flag (per-session concurrency limit of 1) — whose
implementation is not among the checked-in sources. -/
structure PlanState where
  steps : List StepStatus
  inflight : Bool
deriving DecidableEq, Repr

/-- The attempts that can hit a session's Plan during a turn: starting a
tool call on a step, finishing the in-flight call, or appending a new
pending step. -/
inductive PlanAct
  | startStep (i : Nat)
  | finishStep (i : Nat) (ok : Bool)
  | appendStep
deriving DecidableEq, Repr

/-- Modelled from the spec: how the Planning Loop / Tool Gateway pair
processes one attempt.  A `startStep` while a call is already in flight
is rejected (state unchanged, never executed concurrently); otherwise a
pending step becomes `running` and the in-flight flag is taken.
`finishStep` resolves the running step to `done` or `failed` and
releases the flag. -/
def applyAct (p : PlanState) (a : PlanAct) : PlanState :=
  match a with
  | .startStep i =>
    if p.inflight then p
    else if p.steps[i]? = some .pending then
      ⟨p.steps.set i .running, true⟩
    else p
  | .finishStep i ok =>
    if p.steps[i]? = some .running then
      ⟨p.steps.set i (if ok then .done else .failed), false⟩
    else p
  | .appendStep => ⟨p.steps ++ [.pending], p.inflight⟩

/-- A turn's initial Plan: `n` pending steps, no call in flight. -/
def initPlan (n : Nat) : PlanState :=
  ⟨List.replicate n .pending, false⟩

/-- Whether a step status is `running`. -/
def isRunningStep : StepStatus → Bool
  | .running => true
  | _ => false

/-- How many steps of a Plan are `running`. -/
def runningCount (p : PlanState) : Nat :=
  p.steps.countP isRunningStep

theorem countP_set_start (l : List StepStatus) (i : Nat)
    (h : l[i]? = some .pending) :
    (l.set i .running).countP isRunningStep =
      l.countP isRunningStep + 1 := by
  induction l generalizing i with
  | nil => simp at h
  | cons x l ih =>
    cases i with
    | zero =>
      rw [List.getElem?_cons_zero, Option.some.injEq] at h
      subst h
      simp [List.countP_cons, isRunningStep]
    | succ i =>
      rw [List.getElem?_cons_succ] at h
      simp only [List.set_cons_succ, List.countP_cons, ih i h]
      omega

theorem countP_set_finish (l : List StepStatus) (i : Nat) (b : StepStatus)
    (hb : isRunningStep b = false) (h : l[i]? = some .running) :
    (l.set i b).countP isRunningStep + 1 = l.countP isRunningStep := by
  induction l generalizing i with
  | nil => simp at h
  | cons x l ih =>
    cases i with
    | zero =>
      rw [List.getElem?_cons_zero, Option.some.injEq] at h
      subst h
      rw [List.set_cons_zero, List.countP_cons, List.countP_cons, hb]
      simp [isRunningStep]
    | succ i =>
      rw [List.getElem?_cons_succ] at h
      simp only [List.set_cons_succ, List.countP_cons]
      have := ih i h
      omega

/-- The coupling invariant between the Plan and the Tool Gateway: the
number of running steps is 1 when a call is in flight and 0 otherwise. -/
def PlanInv (p : PlanState) : Prop :=
  runningCount p = if p.inflight then 1 else 0

theorem planInv_init (n : Nat) : PlanInv (initPlan n) := by
  unfold PlanInv runningCount initPlan
  simp only [Bool.false_eq_true, if_false]
  rw [List.countP_eq_zero]
  intro a ha
  rw [List.eq_of_mem_replicate ha]
  simp [isRunningStep]

theorem planInv_step (p : PlanState) (a : PlanAct) (hp : PlanInv p) :
    PlanInv (applyAct p a) := by
  unfold PlanInv runningCount at hp ⊢
  match a with
  | .startStep i =>
    cases hf : p.inflight with
    | true =>
      have happ : applyAct p (.startStep i) = p := by
        simp [applyAct, hf]
      rw [happ]
      exact hp
    | false =>
      by_cases hip : p.steps[i]? = some .pending
      · have happ : applyAct p (.startStep i) =
            ⟨p.steps.set i .running, true⟩ := by
          simp [applyAct, hf, hip]
        rw [happ]
        show (p.steps.set i .running).countP isRunningStep =
          if (true : Bool) = true then 1 else 0
        rw [if_pos rfl, countP_set_start p.steps i hip]
        rw [hf] at hp
        simp only [Bool.false_eq_true, if_false] at hp
        omega
      · have happ : applyAct p (.startStep i) = p := by
          simp [applyAct, hf, hip]
        rw [happ]
        exact hp
  | .finishStep i ok =>
    by_cases hir : p.steps[i]? = some .running
    · have happ : applyAct p (.finishStep i ok) =
          ⟨p.steps.set i (if ok then .done else .failed), false⟩ := by
        simp [applyAct, hir]
      have hpos : 0 < p.steps.countP isRunningStep :=
        List.countP_pos_iff.mpr ⟨.running, List.getElem?_mem hir, rfl⟩
      have hf : p.inflight = true := by
        cases hf : p.inflight with
        | true => rfl
        | false =>
          rw [hf] at hp
          simp only [Bool.false_eq_true, if_false] at hp
          omega
      rw [hf] at hp
      simp at hp
      have hb : isRunningStep (if ok then .done else .failed) = false := by
        cases ok <;> rfl
      have hdec := countP_set_finish p.steps i _ hb hir
      rw [happ]
      show (p.steps.set i
          (if ok = true then StepStatus.done else StepStatus.failed)).countP
          isRunningStep = 0
      omega
    · have happ : applyAct p (.finishStep i ok) = p := by
        simp [applyAct, hir]
      rw [happ]
      exact hp
  | .appendStep =>
    have happ : applyAct p .appendStep =
        ⟨p.steps ++ [.pending], p.inflight⟩ := rfl
    rw [happ]
    simp only [List.countP_append]
    have h0 : List.countP isRunningStep [StepStatus.pending] = 0 := rfl
    rw [h0]
    simpa using hp

theorem planInv_fold (n : Nat) (acts : List PlanAct) :
    PlanInv (acts.foldl applyAct (initPlan n)) := by
  induction acts using List.reverseRecOn with
  | nil => exact planInv_init n
  | append_singleton acts a ih =>
    rw [List.foldl_append]
    simp only [List.foldl_cons, List.foldl_nil]
    exact planInv_step _ a ih

/-- C3: after any sequence of attempts on a fresh `n`-step Plan, at most
one step is `running`; and a `startStep` attempt issued while a tool
call is already in flight is rejected with the state unchanged — it is
never executed concurrently with the first. -/
theorem c3_single_running_step (n : Nat) (acts : List PlanAct) :
    runningCount (acts.foldl applyAct (initPlan n)) ≤ 1 ∧
      ∀ (steps : List StepStatus) (i : Nat),
        applyAct ⟨steps, true⟩ (.startStep i) = ⟨steps, true⟩ := by
  constructor
  · have := planInv_fold n acts
    unfold PlanInv at this
    rw [this]
    by_cases h : (acts.foldl applyAct (initPlan n)).inflight <;> simp [h]
  · intro steps i
    rfl

/-- The error taxonomy of the spec (§7). -/
inductive ErrClass
  | validation
  | unknown_tool
  | timeout
  | sandbox_unavailable
  | capacity_exceeded
  | stream_gap
  | internal
deriving DecidableEq, Repr

/-- The typed events a turn publishes, from the spec's event model.
`errorEv` is the non-terminal per-step error event; `doneEv`,
`errorTerminal` and `stoppedEv` are the three terminal events. -/
inductive TurnEvent
  | messageDelta (t : String)
  | planUpdate (n : Nat)
  | stepUpdate (st : StepStatus)
  | toolInvocation (name : String)
  | errorEv (c : ErrClass)
  | doneEv (summary : String)
  | errorTerminal (c : ErrClass)
  | stoppedEv
deriving DecidableEq, Repr

/-- Whether an event is one of the three terminal events `done`,
`error`, `stopped`. -/
def isTerminal : TurnEvent → Bool
  | .doneEv _ => true
  | .errorTerminal _ => true
  | .stoppedEv => true
  | _ => false

/-- The model capability's possible "next actions" (§4.1): emit
assistant text, declare a plan, invoke a named tool, or declare
completion. -/
inductive ModelAction
  | say (t : String)
  | declarePlan (n : Nat)
  | callTool (name : String)
  | complete (summary : String)
deriving DecidableEq, Repr

/-- The per-turn environment of the Planning Loop: the registered
capability set, whether a stop was requested, and whether the sandbox is
reachable. -/
structure LoopEnv where
  caps : List String
  stopRequested : Bool
  sandboxOk : Bool
deriving DecidableEq, Repr

/-- The embedded failure summary the turn's final `done` carries when
the model runs out of actions without declaring completion. -/
def failureSummary : String :=
  "turn ended without completion"

/-- Modelled from the spec: one turn of the Planning Loop (§4.1), whose
implementation is not among the checked-in sources, driven by the finite
sequence of actions the model capability produces.  Cancellation is
checked before each action; an unknown tool yields a non-fatal
`unknown_tool` error event and a `failed` step and the plan continues;
an unreachable sandbox is fatal to the turn (terminal error event);
completion or exhausting the model's actions ends the turn with `done`. -/
def runTurn (env : LoopEnv) : List ModelAction → List TurnEvent
  | [] => [.doneEv failureSummary]
  | a :: rest =>
    if env.stopRequested then [.stoppedEv]
    else
      match a with
      | .say t => .messageDelta t :: runTurn env rest
      | .declarePlan n => .planUpdate n :: runTurn env rest
      | .callTool name =>
        if name ∈ env.caps then
          if env.sandboxOk then
            .stepUpdate .running :: .toolInvocation name ::
              .stepUpdate .done :: runTurn env rest
          else
            [.errorTerminal .sandbox_unavailable]
        else
          .errorEv .unknown_tool :: .stepUpdate .failed :: runTurn env rest
      | .complete s => [.doneEv s]

/-- C5: every turn delivers exactly one terminal event — one of `done`,
`error`, `stopped` — never zero and never more than one. -/
theorem c5_one_terminal_event (env : LoopEnv) (script : List ModelAction) :
    (runTurn env script).countP isTerminal = 1 := by
  induction script with
  | nil => rfl
  | cons a rest ih =>
    by_cases hstop : env.stopRequested
    · simp [runTurn, hstop, List.countP_cons, isTerminal]
    · match a with
      | .say t =>
        simp only [runTurn, hstop, Bool.false_eq_true, if_false, List.countP_cons]
        simpa [isTerminal] using ih
      | .declarePlan n =>
        simp only [runTurn, hstop, Bool.false_eq_true, if_false, List.countP_cons]
        simpa [isTerminal] using ih
      | .callTool name =>
        by_cases hcap : name ∈ env.caps
        · by_cases hsb : env.sandboxOk
          · simp only [runTurn, hstop, Bool.false_eq_true, if_false, hcap,
              if_true, hsb, List.countP_cons, if_pos rfl]
            simpa [isTerminal] using ih
          · simp [runTurn, hstop, hcap, hsb, List.countP_cons, isTerminal]
        · simp only [runTurn, hstop, Bool.false_eq_true, if_false, hcap,
            if_false, List.countP_cons]
          simpa [isTerminal] using ih
      | .complete s =>
        simp [runTurn, hstop, List.countP_cons, isTerminal]

/-- C7: when the model requests a tool outside the registered capability
set (and no stop is pending), the loop emits an `unknown_tool` error
event, marks the step `failed`, and continues the plan with the model's
remaining actions; when the model has no fallback (no remaining
actions), the turn ends with `done` carrying the failure summary. -/
theorem c7_unknown_tool_recoverable (env : LoopEnv) (name : String)
    (rest : List ModelAction)
    (hstop : env.stopRequested = false) (hcap : name ∉ env.caps) :
    runTurn env (.callTool name :: rest) =
        .errorEv .unknown_tool :: .stepUpdate .failed :: runTurn env rest ∧
      runTurn env [.callTool name] =
        [.errorEv .unknown_tool, .stepUpdate .failed,
          .doneEv failureSummary] := by
  constructor
  · simp [runTurn, hstop, hcap]
  · simp [runTurn, hstop, hcap]

/-- Witness for C7: requesting the unregistered tool `frob` with only
`shell` registered yields the unknown-tool error, the failed step, and
the `done` with failure summary. -/
theorem c7_unknown_tool_recoverable_witness :
    runTurn ⟨["shell"], false, true⟩ [.callTool "frob"] =
      [.errorEv .unknown_tool, .stepUpdate .failed,
        .doneEv failureSummary] :=
  (c7_unknown_tool_recoverable ⟨["shell"], false, true⟩ "frob" []
    rfl (by decide)).2

/-! ### Part IV: Session Registry -/

/-- A live session record held by the registry: the session identifier
and its eagerly provisioned sandbox handle. -/
structure SessionRec where
  sid : Nat
  sandbox : Nat
deriving DecidableEq, Repr

/-- Modelled from the spec: the Session Registry (§4.4), the
process-wide map from session identifier to live state, whose
implementation is not among the checked-in sources. -/
structure Registry where
  sessions : List SessionRec
  nextId : Nat
deriving DecidableEq, Repr

/-- Admission-control configuration: the concurrent-sandbox limit and
the debug/shared-sandbox mode flag that bypasses it. -/
structure RegConfig where
  maxConcurrent : Nat
  debugMode : Bool
deriving DecidableEq, Repr

/-- Modelled from the spec: `create` (§4.4, §5).  Outside debug mode,
creation beyond the concurrent-sandbox limit fails with
`capacity_exceeded`; otherwise a Sandbox Handle is provisioned eagerly
(`sandboxStart` is its start result) and the whole operation fails with
`sandbox_unavailable` if sandbox start fails.  Only on success is a
session inserted.  The returned registry is the unchanged input on every
failure (all-or-nothing construction). -/
def Registry.create (cfg : RegConfig) (r : Registry)
    (sandboxStart : Option Nat) : Registry × Except ErrClass Nat :=
  if cfg.debugMode = false ∧ cfg.maxConcurrent ≤ r.sessions.length then
    (r, .error .capacity_exceeded)
  else
    match sandboxStart with
    | none => (r, .error .sandbox_unavailable)
    | some sb =>
      (⟨r.sessions ++ [⟨r.nextId, sb⟩], r.nextId + 1⟩, .ok r.nextId)

/-- Modelled from the spec: `delete` (§4.4) removes the session's entry
if present and reports success (`code = 0` envelope) whether or not the
identifier was known. -/
def Registry.delete (r : Registry) (i : Nat) : Registry × Nat :=
  (⟨r.sessions.filter (fun s => s.sid != i), r.nextId⟩, 0)

/-- C4: `create` is all-or-nothing.  Outside debug mode at or beyond the
concurrent-sandbox limit it fails with `capacity_exceeded` and returns
the registry unchanged; when sandbox start fails the whole operation
fails and no session is inserted; in general, any failing `create`
leaves the registry exactly as it was (no partial session left
behind). -/
theorem c4_create_all_or_nothing (cfg : RegConfig) (r : Registry)
    (sb : Option Nat) :
    (cfg.debugMode = false → cfg.maxConcurrent ≤ r.sessions.length →
        Registry.create cfg r sb = (r, .error .capacity_exceeded)) ∧
      ((Registry.create cfg r none).1 = r ∧
        ∀ i, (Registry.create cfg r none).2 ≠ .ok i) ∧
      (∀ e, (Registry.create cfg r sb).2 = .error e →
        (Registry.create cfg r sb).1 = r) := by
  refine ⟨?_, ?_, ?_⟩
  · intro hdbg hlim
    unfold Registry.create
    rw [if_pos ⟨hdbg, hlim⟩]
  · unfold Registry.create
    by_cases hc : cfg.debugMode = false ∧ cfg.maxConcurrent ≤ r.sessions.length
    · rw [if_pos hc]
      exact ⟨rfl, fun i h => by simp at h⟩
    · rw [if_neg hc]
      exact ⟨rfl, fun i h => by simp at h⟩
  · intro e
    unfold Registry.create
    by_cases hc : cfg.debugMode = false ∧ cfg.maxConcurrent ≤ r.sessions.length
    · rw [if_pos hc]
      intro _
      rfl
    · rw [if_neg hc]
      match sb with
      | none => intro _; rfl
      | some s => intro h; simp at h

/-- Witness for C4: a capacity-0 registry rejects creation with
`capacity_exceeded` leaving the empty registry unchanged, and a failed
sandbox start under capacity 1 also leaves it unchanged. -/
theorem c4_create_all_or_nothing_witness :
    Registry.create ⟨0, false⟩ ⟨[], 0⟩ (some 7) =
        (⟨[], 0⟩, .error .capacity_exceeded) ∧
      (Registry.create ⟨1, false⟩ ⟨[], 0⟩ none).1 = ⟨[], 0⟩ :=
  ⟨(c4_create_all_or_nothing ⟨0, false⟩ ⟨[], 0⟩ (some 7)).1 rfl (Nat.le_refl 0),
    (c4_create_all_or_nothing ⟨1, false⟩ ⟨[], 0⟩ none).2.2
      .sandbox_unavailable rfl⟩

/-- C6: `delete` is idempotent and never an error.  Every call reports
success code 0 — including the second call on the same identifier, which
targets an already-deleted (unknown) session — the second call returns
exactly the same registry and code as the first, and after a delete no
session with that identifier remains. -/
theorem c6_delete_idempotent (r : Registry) (i : Nat) :
    (Registry.delete r i).2 = 0 ∧
      (Registry.delete (Registry.delete r i).1 i).2 = 0 ∧
      Registry.delete (Registry.delete r i).1 i = Registry.delete r i ∧
      (Registry.delete r i).1.sessions.all (fun s => s.sid != i) = true := by
  refine ⟨rfl, rfl, ?_, ?_⟩
  · unfold Registry.delete
    simp only [Prod.mk.injEq, and_true, Registry.mk.injEq, List.filter_filter]
    simp
  · rw [List.all_eq_true]
    intro s hs
    unfold Registry.delete at hs
    simp only at hs
    exact (List.mem_filter.mp hs).2

end Scorpio
